import Mathlib

/-!
Verification development for the compose-ref publishing core.

The Go source (several revision variants of the same feature: the engine-strategy
and registry-strategy image pinners, the tgz archive builder with and without
ignore support, and the bundle publisher) is shallowly embedded below.  Strings
are modelled through their character lists; the external registry, container
engine and filesystem collaborators are modelled as explicit oracles or as the
walk sequence they would produce.  Collaborator library routines used by the
code (docker reference normalization, path/filepath glob matching,
dockerignore file reading) are translated from their documented behaviour.
-/

set_option autoImplicit false

namespace ComposeRef

/-! ### Character-list utilities shared by the embeddings -/

/-- Split a character list at the first occurrence of `c`: returns the part
before and the part after, or `none` when `c` does not occur. -/
def splitAtFirst (c : Char) : List Char → Option (List Char × List Char)
  | [] => none
  | x :: xs =>
    if x = c then some ([], xs)
    else (splitAtFirst c xs).map (fun p => (x :: p.1, p.2))

theorem splitAtFirst_eq_none {c : Char} : ∀ {s : List Char},
    splitAtFirst c s = none ↔ c ∉ s := by
  intro s
  induction s with
  | nil => simp [splitAtFirst]
  | cons x xs ih =>
    by_cases hx : x = c
    · subst hx; simp [splitAtFirst]
    · simp only [splitAtFirst, if_neg hx, Option.map_eq_none', List.mem_cons]
      constructor
      · intro h hc
        rcases hc with hc | hc
        · exact hx hc.symm
        · exact (ih.mp h) hc
      · intro h
        exact ih.mpr (fun hc => h (Or.inr hc))

theorem splitAtFirst_eq_some {c : Char} : ∀ {s a b : List Char},
    splitAtFirst c s = some (a, b) → s = a ++ c :: b ∧ c ∉ a := by
  intro s
  induction s with
  | nil => intro a b h; simp [splitAtFirst] at h
  | cons x xs ih =>
    intro a b h
    by_cases hx : x = c
    · subst hx
      simp [splitAtFirst] at h
      obtain ⟨ha, hb⟩ := h
      subst ha; subst hb; simp
    · simp only [splitAtFirst, if_neg hx, Option.map_eq_some'] at h
      obtain ⟨⟨a', b'⟩, hsp, heq⟩ := h
      obtain ⟨h1, h2⟩ := Prod.mk.injEq _ _ _ _ ▸ heq
      obtain ⟨hs, hni⟩ := ih hsp
      subst h2
      rw [← h1]
      constructor
      · simp [hs]
      · intro hmem
        rcases List.mem_cons.mp hmem with hm | hm
        · exact hx hm.symm
        · exact hni hm

theorem splitAtFirst_append {c : Char} : ∀ {a : List Char} (b : List Char),
    c ∉ a → splitAtFirst c (a ++ c :: b) = some (a, b) := by
  intro a
  induction a with
  | nil => intro b _; simp [splitAtFirst]
  | cons x xs ih =>
    intro b hni
    have hx : ¬ x = c := fun h => hni (by simp [h])
    have hxs : c ∉ xs := fun h => hni (List.mem_cons_of_mem _ h)
    simp [splitAtFirst, if_neg hx, ih b hxs]

/-! ### Model of the docker reference collaborator

`reference.ParseNormalizedNamed` from docker/distribution: the domain is split
off the front of the raw string (defaulting to `docker.io` unless the first
path segment looks like a registry host), the legacy `index.docker.io` host is
rewritten to `docker.io`, official images get the `library/` path, and the
digest (after the first `@`) and tag (after a final `:` not followed by `/`)
components are split off.  Character-level validation of the collaborator's
regular expressions is abstracted into the structural conditions `validName`
actually relied upon by the code. -/

def defaultDomain : List Char := "docker.io".data

def legacyDomain : List Char := "index.docker.io".data

/-- The tail of `splitDockerDomain`: rewrite the legacy default host to the
default one, and prepend the official-image path to bare official names. -/
def splitDomainRem (dom rem : List Char) : List Char × List Char :=
  let dom2 := if dom = legacyDomain then defaultDomain else dom
  let rem2 := if dom2 = defaultDomain && !(rem.contains '/')
              then "library/".data ++ rem else rem
  (dom2, rem2)

/-- `splitDockerDomain` of docker/distribution, applied to the raw string. -/
def splitDockerDomainGo (s : List Char) : List Char × List Char :=
  match splitAtFirst '/' s with
  | none => splitDomainRem defaultDomain s
  | some (head, rest) =>
    if head.contains '.' || head.contains ':' || head = "localhost".data
    then splitDomainRem head rest else splitDomainRem defaultDomain s

/-- Scan the reversed name part for the tag separator: the last `:` of the
name is a tag separator provided no `/` follows it. `acc` holds the characters
already scanned (in original order). -/
def findTag : List Char → List Char → Option (List Char × List Char)
  | [], _ => none
  | c :: rest, acc =>
    if c = '/' then none
    else if c = ':' then some (rest.reverse, acc)
    else findTag rest (c :: acc)

/-- Split the tag component off a name, as the reference grammar does. -/
def splitTag (name : List Char) : List Char × Option (List Char) :=
  match findTag name.reverse [] with
  | some (base, tag) => (base, some tag)
  | none => (name, none)

/-- A parsed (normalized) reference, over character lists. -/
structure RefC where
  domain : List Char
  path : List Char
  tag : Option (List Char)
  digest : Option (List Char)
  deriving DecidableEq, Repr

/-- Structural validity conditions of the reference grammar that the
development relies on (the collaborator rejects at least these shapes). -/
def validName (dom path : List Char) (tag : Option (List Char))
    (dg : Option (List Char)) : Bool :=
  decide (path ≠ []) && !(path.contains ':') && !(dom.contains '@') &&
  (match tag with
   | none => true
   | some t => decide (t ≠ [])) &&
  (match dg with
   | none => true
   | some d => decide (d ≠ []) && !(d.contains '@') && !(d.contains '/'))

/-- Assembles the reference once domain, name-with-tag and digest parts are
split; rejects structurally invalid shapes. -/
def refOfParts (dom nt : List Char) (dgl : Option (List Char)) : Option RefC :=
  if validName dom (splitTag nt).1 (splitTag nt).2 dgl
  then some ⟨dom, (splitTag nt).1, (splitTag nt).2, dgl⟩ else none

def parseCore (sd : List Char) : Option RefC :=
  match splitAtFirst '@' (splitDockerDomainGo sd).2 with
  | some p => refOfParts (splitDockerDomainGo sd).1 p.1 (some p.2)
  | none => refOfParts (splitDockerDomainGo sd).1 (splitDockerDomainGo sd).2 none

/-- A parsed (normalized) reference, over strings. -/
structure Ref where
  domain : String
  path : String
  tag : Option String
  digest : Option String
  deriving DecidableEq, Repr

/-- Model of `reference.ParseNormalizedNamed`. -/
def parseNormalizedNamed (s : String) : Option Ref :=
  (parseCore s.data).map
    (fun r => ⟨String.mk r.domain, String.mk r.path,
               r.tag.map String.mk, r.digest.map String.mk⟩)

/-! ### Properties of the reference model -/

theorem findTag_eq_none : ∀ {l : List Char}, ':' ∉ l → ∀ acc, findTag l acc = none := by
  intro l
  induction l with
  | nil => intro _ acc; rfl
  | cons c rest ih =>
    intro h acc
    have hc : ¬ c = ':' := fun hh => h (by simp [hh])
    by_cases hs : c = '/'
    · simp [findTag, hs]
    · simp only [findTag, if_neg hs, if_neg hc]
      exact ih (fun hm => h (List.mem_cons_of_mem _ hm)) _

theorem findTag_spec : ∀ (l acc base tag : List Char), '/' ∉ acc → ':' ∉ acc →
    findTag l acc = some (base, tag) →
    l.reverse ++ acc = base ++ ':' :: tag ∧ '/' ∉ tag ∧ ':' ∉ tag := by
  intro l
  induction l with
  | nil => intro acc base tag _ _ h; simp [findTag] at h
  | cons c rest ih =>
    intro acc base tag hns hnc h
    by_cases hsl : c = '/'
    · simp [findTag, hsl] at h
    · by_cases hcl : c = ':'
      · subst hcl
        have hred : findTag (':' :: rest) acc = some (rest.reverse, acc) := by
          simp [findTag, hsl]
        rw [hred] at h
        simp only [Option.some.injEq, Prod.mk.injEq] at h
        obtain ⟨h1, h2⟩ := h
        subst h1; subst h2
        refine ⟨by simp, hns, hnc⟩
      · simp only [findTag, if_neg hsl, if_neg hcl] at h
        have hns' : '/' ∉ c :: acc := by
          intro hm
          rcases List.mem_cons.mp hm with hm | hm
          · exact hsl hm.symm
          · exact hns hm
        have hnc' : ':' ∉ c :: acc := by
          intro hm
          rcases List.mem_cons.mp hm with hm | hm
          · exact hcl hm.symm
          · exact hnc hm
        obtain ⟨hs, hd, hc2⟩ := ih (c :: acc) base tag hns' hnc' h
        refine ⟨?_, hd, hc2⟩
        rw [← hs]; simp

theorem splitTag_of_no_colon {name : List Char} (h : ':' ∉ name) :
    splitTag name = (name, none) := by
  unfold splitTag
  rw [findTag_eq_none (by simpa using h) []]

theorem splitTag_eq_some {name base tag : List Char}
    (h : splitTag name = (base, some tag)) :
    name = base ++ ':' :: tag ∧ '/' ∉ tag ∧ ':' ∉ tag := by
  unfold splitTag at h
  cases hf : findTag name.reverse [] with
  | none => rw [hf] at h; simp at h
  | some p =>
    obtain ⟨b, t⟩ := p
    rw [hf] at h
    simp only [Prod.mk.injEq, Option.some.injEq] at h
    obtain ⟨h1, h2⟩ := h
    obtain ⟨hs, hd, hc⟩ := findTag_spec name.reverse [] b t (by simp) (by simp) hf
    subst h1; subst h2
    refine ⟨by simpa using hs, hd, hc⟩

theorem splitTag_eq_none {name base : List Char} (h : splitTag name = (base, none)) :
    base = name := by
  unfold splitTag at h
  cases hf : findTag name.reverse [] with
  | none => rw [hf] at h; simp only [Prod.mk.injEq] at h; exact h.1.symm
  | some p => obtain ⟨b, t⟩ := p; rw [hf] at h; simp at h

theorem splitDomainRem_fst (dom rem : List Char) :
    (splitDomainRem dom rem).1 = if dom = legacyDomain then defaultDomain else dom := rfl

theorem splitDomainRem_snd (dom rem : List Char) :
    (splitDomainRem dom rem).2 =
      if (splitDomainRem dom rem).1 = defaultDomain && !(rem.contains '/')
      then "library/".data ++ rem else rem := rfl

theorem slash_mem_rem2_of_default (d2 rem : List Char) (hd : d2 = defaultDomain) :
    '/' ∈ (if d2 = defaultDomain && !(rem.contains '/')
           then "library/".data ++ rem else rem) := by
  by_cases hb : rem.contains '/' = true
  · have hmem := List.elem_iff.mp hb
    by_cases hcond : (decide (d2 = defaultDomain) && !(rem.contains '/')) = true
    · rw [if_pos hcond]; exact List.mem_append_right _ hmem
    · rw [if_neg hcond]; exact hmem
  · have hbf : rem.contains '/' = false := by
      revert hb
      cases rem.contains '/' <;> simp
    have hcond : (decide (d2 = defaultDomain) && !(rem.contains '/')) = true := by
      rw [hbf, hd]
      simp
    rw [if_pos hcond]
    exact List.mem_append_left _ (by decide)

theorem splitDomainRem_facts (dom rem : List Char) (hni : '/' ∉ dom)
    (hcond : '.' ∈ dom ∨ ':' ∈ dom ∨ dom = "localhost".data ∨ dom = defaultDomain) :
    '/' ∉ (splitDomainRem dom rem).1 ∧
    ('.' ∈ (splitDomainRem dom rem).1 ∨ ':' ∈ (splitDomainRem dom rem).1 ∨
      (splitDomainRem dom rem).1 = "localhost".data) ∧
    (splitDomainRem dom rem).1 ≠ legacyDomain ∧
    ((splitDomainRem dom rem).1 = defaultDomain → '/' ∈ (splitDomainRem dom rem).2) := by
  have hdot : '.' ∈ defaultDomain := by decide
  have hdef : defaultDomain ≠ legacyDomain := by decide
  have h4 : (splitDomainRem dom rem).1 = defaultDomain → '/' ∈ (splitDomainRem dom rem).2 := by
    intro hd
    rw [splitDomainRem_snd]
    exact slash_mem_rem2_of_default _ rem hd
  rw [splitDomainRem_fst] at *
  by_cases hleg : dom = legacyDomain
  · rw [if_pos hleg] at *
    exact ⟨by decide, Or.inl hdot, hdef, h4⟩
  · rw [if_neg hleg] at *
    refine ⟨hni, ?_, hleg, h4⟩
    rcases hcond with h | h | h | h
    · exact Or.inl h
    · exact Or.inr (Or.inl h)
    · exact Or.inr (Or.inr h)
    · exact Or.inl (h ▸ hdot)

theorem splitDockerDomainGo_facts (s : List Char) :
    '/' ∉ (splitDockerDomainGo s).1 ∧
    ('.' ∈ (splitDockerDomainGo s).1 ∨ ':' ∈ (splitDockerDomainGo s).1 ∨
      (splitDockerDomainGo s).1 = "localhost".data) ∧
    (splitDockerDomainGo s).1 ≠ legacyDomain ∧
    ((splitDockerDomainGo s).1 = defaultDomain → '/' ∈ (splitDockerDomainGo s).2) := by
  unfold splitDockerDomainGo
  cases h : splitAtFirst '/' s with
  | none =>
    exact splitDomainRem_facts defaultDomain s (by decide) (Or.inr (Or.inr (Or.inr rfl)))
  | some p =>
    obtain ⟨head, rest⟩ := p
    obtain ⟨hs, hni⟩ := splitAtFirst_eq_some h
    dsimp only
    by_cases hc : (head.contains '.' || head.contains ':' || decide (head = "localhost".data)) = true
    · rw [if_pos hc]
      have hc' : '.' ∈ head ∨ ':' ∈ head ∨ head = "localhost".data ∨ head = defaultDomain := by
        simp only [Bool.or_eq_true, decide_eq_true_eq] at hc
        rcases hc with (h1 | h1) | h1
        · exact Or.inl (List.elem_iff.mp h1)
        · exact Or.inr (Or.inl (List.elem_iff.mp h1))
        · exact Or.inr (Or.inr (Or.inl h1))
      exact splitDomainRem_facts head rest hni hc'
    · rw [if_neg hc]
      exact splitDomainRem_facts defaultDomain s (by decide) (Or.inr (Or.inr (Or.inr rfl)))

theorem splitDomainRem_id {dom rem : List Char} (h3 : dom ≠ legacyDomain)
    (h4 : dom = defaultDomain → '/' ∈ rem) : splitDomainRem dom rem = (dom, rem) := by
  have hfst : (splitDomainRem dom rem).1 = dom := by
    rw [splitDomainRem_fst, if_neg h3]
  have hsnd : (splitDomainRem dom rem).2 = rem := by
    rw [splitDomainRem_snd, hfst]
    have hncond : ¬ ((decide (dom = defaultDomain) && !(rem.contains '/')) = true) := by
      intro hcond
      rw [Bool.and_eq_true] at hcond
      have hdd : dom = defaultDomain := by
        have h := hcond.1
        simpa using h
      have hnr : rem.contains '/' = false := by
        have h := hcond.2
        simpa using h
      have hct : rem.contains '/' = true := List.elem_iff.mpr (h4 hdd)
      rw [hct] at hnr
      cases hnr
    rw [if_neg hncond]
  calc splitDomainRem dom rem = ((splitDomainRem dom rem).1, (splitDomainRem dom rem).2) := rfl
    _ = (dom, rem) := by rw [hfst, hsnd]

theorem splitDockerDomainGo_of_domain {d rest : List Char}
    (h1 : '/' ∉ d)
    (h2 : '.' ∈ d ∨ ':' ∈ d ∨ d = "localhost".data)
    (h3 : d ≠ legacyDomain)
    (h4 : d = defaultDomain → '/' ∈ rest) :
    splitDockerDomainGo (d ++ '/' :: rest) = (d, rest) := by
  unfold splitDockerDomainGo
  rw [splitAtFirst_append rest h1]
  dsimp only
  have hc : (d.contains '.' || d.contains ':' || decide (d = "localhost".data)) = true := by
    simp only [Bool.or_eq_true, decide_eq_true_eq]
    rcases h2 with h | h | h
    · exact Or.inl (Or.inl (List.elem_iff.mpr h))
    · exact Or.inl (Or.inr (List.elem_iff.mpr h))
    · exact Or.inr h
  rw [if_pos hc]
  exact splitDomainRem_id h3 h4

theorem contains_eq_false {l : List Char} {c : Char} (h : c ∉ l) : l.contains c = false := by
  cases hc : l.contains c
  · rfl
  · exact absurd (List.elem_iff.mp hc) h

theorem splitTag_path_sub {nt p : List Char} {tg : Option (List Char)}
    (h : splitTag nt = (p, tg)) : ∀ c, c ∈ p → c ∈ nt := by
  intro c hc
  cases tg with
  | none =>
    rw [← splitTag_eq_none h]
    exact hc
  | some t =>
    obtain ⟨he, _, _⟩ := splitTag_eq_some h
    rw [he]
    exact List.mem_append_left _ hc

theorem splitTag_slash {nt p : List Char} {tg : Option (List Char)}
    (h : splitTag nt = (p, tg)) (hs : '/' ∈ nt) : '/' ∈ p := by
  cases tg with
  | none => exact (splitTag_eq_none h) ▸ hs
  | some t =>
    obtain ⟨he, hslash, _⟩ := splitTag_eq_some h
    rw [he] at hs
    rcases List.mem_append.mp hs with hm | hm
    · exact hm
    · rcases List.mem_cons.mp hm with hm2 | hm2
      · exact absurd hm2 (by decide)
      · exact absurd hm2 hslash

theorem refOfParts_eq_some {dom nt : List Char} {dgl : Option (List Char)} {r : RefC}
    (h : refOfParts dom nt dgl = some r) :
    r.domain = dom ∧ r.digest = dgl ∧ splitTag nt = (r.path, r.tag) ∧
    validName dom r.path r.tag dgl = true := by
  unfold refOfParts at h
  split at h
  · next hv =>
    cases h
    exact ⟨rfl, rfl, Prod.mk.eta.symm, hv⟩
  · next => cases h

theorem validName_spec {dom path : List Char} {tag dg : Option (List Char)}
    (h : validName dom path tag dg = true) :
    path ≠ [] ∧ ':' ∉ path ∧ '@' ∉ dom ∧
    (∀ d, dg = some d → d ≠ [] ∧ '@' ∉ d ∧ '/' ∉ d) := by
  unfold validName at h
  simp only [Bool.and_eq_true, decide_eq_true_eq, Bool.not_eq_true'] at h
  obtain ⟨⟨⟨⟨h1, h2⟩, h3⟩, _⟩, h5⟩ := h
  refine ⟨h1, ?_, ?_, ?_⟩
  · intro hm
    have hct : path.contains ':' = true := List.elem_iff.mpr hm
    rw [hct] at h2
    cases h2
  · intro hm
    have hct : dom.contains '@' = true := List.elem_iff.mpr hm
    rw [hct] at h3
    cases h3
  · intro d hd
    subst hd
    simp only [Bool.and_eq_true, decide_eq_true_eq, Bool.not_eq_true'] at h5
    obtain ⟨⟨g1, g2⟩, g3⟩ := h5
    refine ⟨g1, ?_, ?_⟩
    · intro hm
      have hct : d.contains '@' = true := List.elem_iff.mpr hm
      rw [hct] at g2
      cases g2
    · intro hm
      have hct : d.contains '/' = true := List.elem_iff.mpr hm
      rw [hct] at g3
      cases g3

theorem parseCore_inv {sd : List Char} {r : RefC} (hp : parseCore sd = some r) :
    '/' ∉ r.domain ∧
    ('.' ∈ r.domain ∨ ':' ∈ r.domain ∨ r.domain = "localhost".data) ∧
    r.domain ≠ legacyDomain ∧
    r.path ≠ [] ∧ ':' ∉ r.path ∧ '@' ∉ r.path ∧ '@' ∉ r.domain ∧
    (r.domain = defaultDomain → '/' ∈ r.path) ∧
    (∀ d, r.digest = some d → d ≠ [] ∧ '@' ∉ d ∧ '/' ∉ d) := by
  obtain ⟨hf1, hf2, hf3, hf4⟩ := splitDockerDomainGo_facts sd
  unfold parseCore at hp
  cases hsp : splitAtFirst '@' (splitDockerDomainGo sd).2 with
  | some q =>
    obtain ⟨nt, dgl⟩ := q
    rw [hsp] at hp
    dsimp only at hp
    obtain ⟨hdom, hdg, hst, hv⟩ := refOfParts_eq_some hp
    obtain ⟨hrem, hna⟩ := splitAtFirst_eq_some hsp
    obtain ⟨hvp, hvc, hvd, hvdg⟩ := validName_spec hv
    have hpa : '@' ∉ r.path := fun hm => hna (splitTag_path_sub hst '@' hm)
    refine ⟨hdom ▸ hf1, hdom ▸ hf2, hdom ▸ hf3, hvp, hvc, hpa, hdom ▸ hvd, ?_, hdg ▸ hvdg⟩
    intro hd
    have hsl : '/' ∈ (splitDockerDomainGo sd).2 := hf4 (hdom ▸ hd)
    rw [hrem] at hsl
    have hnt : '/' ∈ nt := by
      rcases List.mem_append.mp hsl with hm | hm
      · exact hm
      · rcases List.mem_cons.mp hm with hm2 | hm2
        · exact absurd hm2 (by decide)
        · have hdgl := hvdg dgl (hdg ▸ rfl)
          exact absurd hm2 hdgl.2.2
    exact splitTag_slash hst hnt
  | none =>
    rw [hsp] at hp
    dsimp only at hp
    obtain ⟨hdom, hdg, hst, hv⟩ := refOfParts_eq_some hp
    have hna : '@' ∉ (splitDockerDomainGo sd).2 := splitAtFirst_eq_none.mp hsp
    obtain ⟨hvp, hvc, hvd, hvdg⟩ := validName_spec hv
    have hpa : '@' ∉ r.path := fun hm => hna (splitTag_path_sub hst '@' hm)
    refine ⟨hdom ▸ hf1, hdom ▸ hf2, hdom ▸ hf3, hvp, hvc, hpa, hdom ▸ hvd, ?_, hdg ▸ hvdg⟩
    intro hd
    exact splitTag_slash hst (hf4 (hdom ▸ hd))

/-- Re-parsing a pinned reference `domain/path@digest` built from the parts of
a successfully parsed reference recovers the same domain and path, no tag, and
the new digest. -/
theorem parseCore_pinned {sd : List Char} {r : RefC} (hp : parseCore sd = some r)
    {dg : List Char} (h1 : dg ≠ []) (h2 : '@' ∉ dg) (h3 : '/' ∉ dg) :
    parseCore (r.domain ++ '/' :: (r.path ++ '@' :: dg)) =
      some ⟨r.domain, r.path, none, some dg⟩ := by
  obtain ⟨hf1, hf2, hf3, hpne, hpc, hpa, hda, hlib, _⟩ := parseCore_inv hp
  have hdom := @splitDockerDomainGo_of_domain r.domain (r.path ++ '@' :: dg) hf1 hf2 hf3
    (fun hd => List.mem_append_left _ (hlib hd))
  unfold parseCore
  rw [hdom]
  dsimp only
  rw [splitAtFirst_append dg hpa]
  dsimp only
  unfold refOfParts
  rw [splitTag_of_no_colon hpc]
  dsimp only
  have hval : validName r.domain r.path none (some dg) = true := by
    unfold validName
    have c1 := contains_eq_false hpc
    have c2 := contains_eq_false hda
    have c3 := contains_eq_false h2
    have c4 := contains_eq_false h3
    simp [hpne, h1, c1, c2, c3, c4]
    exact ⟨⟨hpc, hda⟩, h2, h3⟩
  rw [if_pos hval]

theorem string_data_ne_nil {s : String} (h : s ≠ "") : s.data ≠ [] := by
  intro hd
  apply h
  cases s with
  | mk l =>
    have hl : l = [] := hd
    rw [hl]

/-- String-level form of `parseCore_pinned`. -/
theorem parseNormalizedNamed_pinned {s : String} {r : Ref}
    (hp : parseNormalizedNamed s = some r) {dg : String}
    (h1 : dg ≠ "") (h2 : '@' ∉ dg.data) (h3 : '/' ∉ dg.data) :
    parseNormalizedNamed (r.domain ++ "/" ++ r.path ++ "@" ++ dg) =
      some ⟨r.domain, r.path, none, some dg⟩ := by
  unfold parseNormalizedNamed at hp ⊢
  cases hpc : parseCore s.data with
  | none => rw [hpc] at hp; cases hp
  | some rc =>
    rw [hpc] at hp
    simp only [Option.map_some'] at hp
    cases hp
    have hdata : ((String.mk rc.domain) ++ "/" ++ (String.mk rc.path) ++ "@" ++ dg).data
        = rc.domain ++ '/' :: (rc.path ++ '@' :: dg.data) := by
      show (((rc.domain ++ "/".data) ++ rc.path) ++ "@".data) ++ dg.data
          = rc.domain ++ '/' :: (rc.path ++ '@' :: dg.data)
      simp
    rw [hdata, parseCore_pinned hpc (string_data_ne_nil h1) h2 h3]
    simp only [Option.map_some']
    rfl

/-! ### Data model: dynamically shaped service records and registry objects -/

/-- A dynamically shaped YAML value as the `map[string]interface` based
variants see it: a string, a nested mapping, or anything else. -/
inductive Val where
  | vstr (s : String)
  | vmap (m : List (String × Val))
  | vother

/-- Go map indexing `m[k]` (keys are unique in a Go map; first binding wins). -/
def lookup : List (String × Val) → String → Option Val
  | [], _ => none
  | (k2, v) :: rest, k => if k2 = k then some v else lookup rest k

/-- Go map assignment `m[k] = v`: replaces the existing binding, else appends. -/
def mapSet : List (String × Val) → String → Val → List (String × Val)
  | [], k, v => [(k, v)]
  | (k2, v2) :: rest, k, v =>
    if k2 = k then (k2, v) :: rest else (k2, v2) :: mapSet rest k v

/-- A platform entry of a manifest list / distribution inspection. -/
structure Platform where
  architecture : String
  variant : String
  deriving DecidableEq, Repr

/-- A content descriptor returned by the registry (only the digest is used). -/
structure Descriptor where
  digest : String
  deriving DecidableEq, Repr

/-- The manifest kinds the registry pinner distinguishes: a
`manifestlist.DeserializedManifestList`, a `schema2.DeserializedManifest`, or
anything else (the `default` arm of the switch). -/
inductive Manifest where
  | mlist (ms : List Platform)
  | single
  | other
  deriving DecidableEq, Repr

/-- How a Go routine ended: a normal return carrying the error result (`none`
is a nil error), or a runtime panic. -/
inductive GoTermination where
  | ret (err : Option String)
  | panicked (msg : String)
  deriving DecidableEq, Repr

/-- Result of processing one service: the updated service value, an error
return, or a runtime panic. -/
inductive StepRes where
  | ok (v : Val)
  | err (msg : String)
  | panicked (msg : String)

/-- The registry collaborator surface used by the registry-strategy pinner:
repository resolution, tag lookup and manifest fetch. -/
structure RegistryOracle where
  getRepository : String → Except String String
  tagsGet : String → String → Except String Descriptor
  manifestsGet : String → String → Except String Manifest

/-- The container-engine collaborator used by the engine-strategy pinner:
`DistributionInspect` returns a digest and the supported platforms. -/
def EngineOracle : Type := String → Except String (String × List Platform)

def lbrace : Char := Char.ofNat 123

def rbrace : Char := Char.ofNat 125

/-- Outcome of part_001's placeholder shim for `image`. -/
inductive PlaceholderRes where
  | ok (image : String)
  | err (msg : String)
  | panicked (msg : String)
  deriving DecidableEq, Repr

/-- part_001 lines 43-52: the ad hoc default-value placeholder shim.  The Go
code indexes `image[0]`, `image[1]` and `image[len(image)-1]` without a length
guard, then splits at the first `-` (`strings.SplitAfterN`) and drops the
final closing brace; an empty remainder would make the `[:len-1]` slice
panic. -/
def resolvePlaceholder (image : String) : PlaceholderRes :=
  match image.data with
  | [] => .panicked "index out of range"
  | c0 :: rest =>
    if c0 ≠ '$' then .ok image
    else
      match rest with
      | [] => .panicked "index out of range"
      | c1 :: _ =>
        if c1 ≠ lbrace ∨ (c0 :: rest).getLastD ' ' ≠ rbrace then
          .err ("Invalid image reference(" ++ image ++
                "). This does not look like a properly format variable-defval")
        else
          match splitAtFirst '-' (c0 :: rest) with
          | none => .err ("Invalid image reference(" ++ image ++
                          "). Variable does not appear to have a default value")
          | some (_, post) =>
            if post = [] then .panicked "slice bounds out of range"
            else .ok (String.mk post.dropLast)

/-- What the two `Printf` calls of the loop body emit for one platform: the
architecture name, and for `arm` the variant appended with no separator. -/
def platformEntry (p : Platform) : String :=
  p.architecture ++ (if p.architecture = "arm" then p.variant else "")

/-- The `for i, plat := range` loop: a comma-space separator before every
entry except the first. -/
def platLoop : List Platform → Nat → String
  | [], _ => ""
  | p :: rest, i =>
    (if i ≠ 0 then ", " else "") ++ platformEntry p ++ platLoop rest (i + 1)

/-- The progress enumeration the pinners print for the platform list. -/
def printPlatformsLoop (ps : List Platform) : String := platLoop ps 0

/-- The progress record the registry pinner emits for the platform set: the
`switch` prints an enumeration only for a manifest list; a single-platform
`schema2` manifest prints nothing. -/
def platformsLine : Manifest → Option String
  | .mlist ps => some ("  | " ++ printPlatformsLoop ps)
  | .single => none
  | .other => none

/-! ### part_001: registry-strategy pinner with the placeholder shim -/

/-- The shared tail of the registry-strategy loop body, from the tag lookup
on.  The source discards the errors of `repo.Tags(ctx).Get`,
`repo.Manifests(ctx, nil)` and `mansvc.Get` (`desc, err := ...` and
`man, err := ...` are never checked), so on failure the zero descriptor
(empty digest) and a nil manifest are used, per Go zero-value semantics; a
nil manifest falls into the `default` switch arm. -/
def pinRegistryTail (o : RegistryOracle) (svc : List (String × Val))
    (repo tag : String) (r : Ref) : StepRes :=
  let desc : Descriptor :=
    match o.tagsGet repo tag with
    | .ok d => d
    | .error _ => ⟨""⟩
  let man : Option Manifest :=
    match o.manifestsGet repo desc.digest with
    | .ok m => some m
    | .error _ => none
  let pinned := r.domain ++ "/" ++ r.path ++ "@" ++ desc.digest
  match man with
  | some (.mlist _) => .ok (.vmap (mapSet svc "image" (.vstr pinned)))
  | some .single => .ok (.vmap (mapSet svc "image" (.vstr pinned)))
  | _ => .err "Unexpected manifest"

/-- One iteration of part_001's `PinServiceImages` loop body. -/
def pinOneP1 (o : RegistryOracle) (name : String) (v : Val) : StepRes :=
  match v with
  | .vmap svc =>
    match lookup svc "image" with
    | none => .err ("Service(" ++ name ++ ") missing image attribute")
    | some (.vstr image0) =>
      match resolvePlaceholder image0 with
      | .panicked m => .panicked m
      | .err m => .err m
      | .ok image =>
        match parseNormalizedNamed image with
        | none => .err "invalid reference format"
        | some r =>
          match o.getRepository (r.domain ++ "/" ++ r.path) with
          | .error e => .err e
          | .ok repo =>
            match r.tag with
            | none => .err ("Invalid image reference(" ++ image ++
                            "): Images must be tagged")
            | some tag => pinRegistryTail o svc repo tag r
    | some _ => .err ("Service(" ++ name ++ ") invalid image attribute")
  | _ => .err ("Service(" ++ name ++ ") has invalid format")

/-- part_001's `PinServiceImages` over the service mapping, iterated in list
order (Go map iteration order is unspecified; the embedding fixes the order
of the association list). -/
def pinServiceImagesP1 (o : RegistryOracle) :
    List (String × Val) → List (String × Val) × GoTermination
  | [] => ([], .ret none)
  | (n, v) :: rest =>
    match pinOneP1 o n v with
    | .panicked m => ((n, v) :: rest, .panicked m)
    | .err m => ((n, v) :: rest, .ret (some m))
    | .ok v2 =>
      match pinServiceImagesP1 o rest with
      | (rest2, t) => ((n, v2) :: rest2, t)

/-! ### part_002: registry-strategy pinner with the unchecked tag assertion -/

/-- One iteration of part_002's loop body: no placeholder shim, and the tag is
obtained through the unchecked type assertion `named.(reference.Tagged)`,
which panics when the parsed reference carries no tag. -/
def pinOneP2 (o : RegistryOracle) (name : String) (v : Val) : StepRes :=
  match v with
  | .vmap svc =>
    match lookup svc "image" with
    | none => .err ("Service(" ++ name ++ ") missing image attribute")
    | some (.vstr image) =>
      match parseNormalizedNamed image with
      | none => .err "invalid reference format"
      | some r =>
        match o.getRepository (r.domain ++ "/" ++ r.path) with
        | .error e => .err e
        | .ok repo =>
          match r.tag with
          | none => .panicked "interface conversion: reference.Named is not reference.Tagged"
          | some tag => pinRegistryTail o svc repo tag r
    | some _ => .err ("Service(" ++ name ++ ") invalid image attribute")
  | _ => .err ("Service(" ++ name ++ ") has invalid format")

/-- part_002's `PinServiceImages` over the service mapping in list order. -/
def pinServiceImagesP2 (o : RegistryOracle) :
    List (String × Val) → List (String × Val) × GoTermination
  | [] => ([], .ret none)
  | (n, v) :: rest =>
    match pinOneP2 o n v with
    | .panicked m => ((n, v) :: rest, .panicked m)
    | .err m => ((n, v) :: rest, .ret (some m))
    | .ok v2 =>
      match pinServiceImagesP2 o rest with
      | (rest2, t) => ((n, v2) :: rest2, t)

/-! ### part_003: engine-strategy pinner over the service mapping -/

/-- One iteration of part_003's loop body: shape checks, parse, engine
inspection (error checked), then the pinned reference is written back into
the service map. -/
def pinOneP3 (inspect : EngineOracle) (name : String) (v : Val) :
    Except String Val :=
  match v with
  | .vmap svc =>
    match lookup svc "image" with
    | none => .error ("Service(" ++ name ++ ") missing image attribute")
    | some (.vstr image) =>
      match parseNormalizedNamed image with
      | none => .error "invalid reference format"
      | some r =>
        match inspect image with
        | .error e => .error e
        | .ok (dg, _) =>
          .ok (.vmap (mapSet svc "image"
            (.vstr (r.domain ++ "/" ++ r.path ++ "@" ++ dg))))
    | some _ => .error ("Service(" ++ name ++ ") invalid image attribute")
  | _ => .error ("Service(" ++ name ++ ") has invalid format")

/-- The value a service holds after a successful pin step (identity when the
step fails; used only to state results). -/
def pinnedValP3 (inspect : EngineOracle) (name : String) (v : Val) : Val :=
  match pinOneP3 inspect name v with
  | .ok v2 => v2
  | .error _ => v

/-- part_003's `PinServiceImages` over the service mapping in list order:
stops at the first error, leaving the services already processed mutated. -/
def pinServiceImagesP3 (inspect : EngineOracle) :
    List (String × Val) → List (String × Val) × Option String
  | [] => ([], none)
  | (n, v) :: rest =>
    match pinOneP3 inspect n v with
    | .error m => ((n, v) :: rest, some m)
    | .ok v2 =>
      match pinServiceImagesP3 inspect rest with
      | (rest2, e) => ((n, v2) :: rest2, e)

/-! ### publish.go: engine-strategy pinner over the typed configuration -/

/-- A typed service record of the compose configuration. -/
structure ServiceC where
  name : String
  image : String
  deriving DecidableEq, Repr

/-- The compose configuration: the service list updated in place. -/
structure Config where
  services : List ServiceC
  deriving DecidableEq, Repr

/-- The write-back loop of publish.go: update the image of the first service
whose name matches, then `break`. -/
def updateFirst : List ServiceC → String → String → List ServiceC
  | [], _, _ => []
  | s :: rest, n, pinned =>
    if s.name = n then { s with image := pinned } :: rest
    else s :: updateFirst rest n pinned

/-- The iteration of publish.go's `PinServiceImages` over the snapshot of
services handed out by `config.WithServices`, threading the mutated service
list. -/
def pinConfigGo (inspect : EngineOracle) (cur : List ServiceC) :
    List ServiceC → Except String (List ServiceC)
  | [] => .ok cur
  | s :: rest =>
    match parseNormalizedNamed s.image with
    | none => .error "invalid reference format"
    | some r =>
      match inspect s.image with
      | .error e => .error e
      | .ok (dg, _) =>
        pinConfigGo inspect
          (updateFirst cur s.name (r.domain ++ "/" ++ r.path ++ "@" ++ dg)) rest

/-- publish.go's `PinServiceImages` over the typed configuration. -/
def PinServiceImages (inspect : EngineOracle) (cfg : Config) :
    Except String Config :=
  (pinConfigGo inspect cfg.services cfg.services).map Config.mk

/-! ### Properties of the write-back loop and the configuration pinner -/

theorem updateFirst_names (ss : List ServiceC) (n p : String) :
    (updateFirst ss n p).map ServiceC.name = ss.map ServiceC.name := by
  induction ss with
  | nil => rfl
  | cons s rest ih =>
    by_cases h : s.name = n
    · simp [updateFirst, h]
    · simp [updateFirst, h, ih]

theorem find?_updateFirst_self (ss : List ServiceC) (n p : String)
    (h : n ∈ ss.map ServiceC.name) :
    (updateFirst ss n p).find? (fun sv => sv.name == n) = some ⟨n, p⟩ := by
  induction ss with
  | nil => simp at h
  | cons s rest ih =>
    by_cases hn : s.name = n
    · simp only [updateFirst, if_pos hn]
      rw [List.find?_cons_of_pos _ (by simp [hn])]
      simp [hn]
    · simp only [updateFirst, if_neg hn]
      rw [List.find?_cons_of_neg _ (by simp [hn])]
      apply ih
      rw [List.map_cons] at h
      rcases List.mem_cons.mp h with hm | hm
      · exact absurd hm.symm hn
      · exact hm

theorem find?_updateFirst_ne (ss : List ServiceC) {n m : String} (p : String)
    (h : n ≠ m) :
    (updateFirst ss n p).find? (fun sv => sv.name == m) =
      ss.find? (fun sv => sv.name == m) := by
  induction ss with
  | nil => rfl
  | cons s rest ih =>
    by_cases hn : s.name = n
    · simp only [updateFirst, if_pos hn]
      by_cases hm : s.name = m
      · exact absurd (hn.symm.trans hm) h
      · rw [List.find?_cons_of_neg _ (by simp [hm]),
            List.find?_cons_of_neg _ (by simp [hm])]
    · simp only [updateFirst, if_neg hn]
      by_cases hm : s.name = m
      · rw [List.find?_cons_of_pos _ (by simp [hm]),
            List.find?_cons_of_pos _ (by simp [hm])]
      · rw [List.find?_cons_of_neg _ (by simp [hm]),
            List.find?_cons_of_neg _ (by simp [hm])]
        exact ih

theorem pinConfigGo_preserves (inspect : EngineOracle) :
    ∀ (snap cur cur' : List ServiceC) (m : String),
    m ∉ snap.map ServiceC.name →
    pinConfigGo inspect cur snap = .ok cur' →
    cur'.find? (fun sv => sv.name == m) = cur.find? (fun sv => sv.name == m) := by
  intro snap
  induction snap with
  | nil =>
    intro cur cur' m _ h
    cases h
    rfl
  | cons s rest ih =>
    intro cur cur' m hm h
    simp only [pinConfigGo] at h
    cases hp : parseNormalizedNamed s.image with
    | none => rw [hp] at h; cases h
    | some r =>
      rw [hp] at h
      cases hi : inspect s.image with
      | error e => rw [hi] at h; cases h
      | ok pr =>
        obtain ⟨dg, ps⟩ := pr
        rw [hi] at h
        dsimp only at h
        have hm1 : s.name ≠ m := fun he => hm (by simp [he])
        have hm2 : m ∉ rest.map ServiceC.name := fun he => hm (by simp [he])
        rw [ih _ cur' m hm2 h, find?_updateFirst_ne _ _ hm1]

theorem pinConfigGo_spec (inspect : EngineOracle) :
    ∀ (snap cur cur' : List ServiceC),
    (∀ s ∈ snap, s.name ∈ cur.map ServiceC.name) →
    (snap.map ServiceC.name).Nodup →
    pinConfigGo inspect cur snap = .ok cur' →
    ∀ s ∈ snap, ∀ (r : Ref) (dg : String) (ps : List Platform),
      parseNormalizedNamed s.image = some r →
      inspect s.image = .ok (dg, ps) →
      cur'.find? (fun sv => sv.name == s.name) =
        some ⟨s.name, r.domain ++ "/" ++ r.path ++ "@" ++ dg⟩ := by
  intro snap
  induction snap with
  | nil =>
    intro cur cur' _ _ _ s hs
    cases hs
  | cons s0 rest ih =>
    intro cur cur' hsub hnd hok s hs r dg ps hpar hins
    simp only [pinConfigGo] at hok
    rcases List.mem_cons.mp hs with rfl | hs2
    · rw [hpar, hins] at hok
      dsimp only at hok
      have hnotin : s.name ∉ rest.map ServiceC.name := by
        rw [List.map_cons] at hnd
        exact (List.nodup_cons.mp hnd).1
      rw [pinConfigGo_preserves inspect rest _ cur' s.name hnotin hok]
      exact find?_updateFirst_self cur s.name _ (hsub s (by simp))
    · cases hpar0 : parseNormalizedNamed s0.image with
      | none => rw [hpar0] at hok; cases hok
      | some r0 =>
        rw [hpar0] at hok
        cases hins0 : inspect s0.image with
        | error e => rw [hins0] at hok; cases hok
        | ok pr0 =>
          obtain ⟨dg0, ps0⟩ := pr0
          rw [hins0] at hok
          dsimp only at hok
          have hsub2 : ∀ t ∈ rest,
              t.name ∈ (updateFirst cur s0.name
                (r0.domain ++ "/" ++ r0.path ++ "@" ++ dg0)).map ServiceC.name := by
            intro t ht
            rw [updateFirst_names]
            exact hsub t (by simp [ht])
          refine ih _ cur' hsub2 ?_ hok s hs2 r dg ps hpar hins
          rw [List.map_cons] at hnd
          exact (List.nodup_cons.mp hnd).2

/-! ### Formatting of the platform progress line -/

/-- Spec-side description of the platform enumeration: entries joined by a
comma and a space. -/
def commaJoined : List String → String
  | [] => ""
  | [a] => a
  | a :: b :: rest => a ++ ", " ++ commaJoined (b :: rest)

theorem string_empty_append (s : String) : "" ++ s = s := by
  cases s with
  | mk l => rfl

theorem string_append_empty (s : String) : s ++ "" = s := by
  cases s with
  | mk l =>
    show String.mk (l ++ []) = String.mk l
    rw [List.append_nil]

theorem platLoop_ne_zero : ∀ (q : Platform) (r2 : List Platform) (i : Nat), i ≠ 0 →
    platLoop (q :: r2) i = ", " ++ commaJoined ((q :: r2).map platformEntry) := by
  intro q r2
  induction r2 generalizing q with
  | nil =>
    intro i hi
    have step : platLoop [q] i =
        (if i ≠ 0 then ", " else "") ++ platformEntry q ++ platLoop [] (i + 1) := rfl
    rw [step, if_pos hi]
    show ", " ++ platformEntry q ++ "" = ", " ++ commaJoined [platformEntry q]
    rw [string_append_empty]
    rfl
  | cons w r ih =>
    intro i hi
    have step : platLoop (q :: w :: r) i =
        (if i ≠ 0 then ", " else "") ++ platformEntry q ++ platLoop (w :: r) (i + 1) := rfl
    rw [step, if_pos hi, ih w (i + 1) (by omega)]
    have step2 : commaJoined ((q :: w :: r).map platformEntry) =
        platformEntry q ++ ", " ++ commaJoined ((w :: r).map platformEntry) := rfl
    rw [step2]
    simp [String.append_assoc]

theorem printPlatformsLoop_eq (ps : List Platform) :
    printPlatformsLoop ps = commaJoined (ps.map platformEntry) := by
  cases ps with
  | nil => rfl
  | cons p rest =>
    cases rest with
    | nil =>
      show "" ++ platformEntry p ++ "" = commaJoined [platformEntry p]
      rw [string_append_empty, string_empty_append]
      rfl
    | cons q r2 =>
      have h0 : ¬ ((0 : Nat) ≠ 0) := by omega
      have step : printPlatformsLoop (p :: q :: r2) =
          (if (0 : Nat) ≠ 0 then ", " else "") ++ platformEntry p ++ platLoop (q :: r2) 1 := rfl
      rw [step, if_neg h0, platLoop_ne_zero q r2 1 (by omega)]
      have step2 : commaJoined ((p :: q :: r2).map platformEntry) =
          platformEntry p ++ ", " ++ commaJoined ((q :: r2).map platformEntry) := rfl
      rw [step2, string_empty_append]
      simp [String.append_assoc]

/-- C8: when pinning resolves a manifest-list target, the emitted platform
line enumerates one entry per sub-manifest in manifest order joined by a
comma and a space, each entry being the architecture with an arm variant
appended with no separator, while a single-platform (schema2) manifest emits
no enumerated platform list. -/
theorem C8_platform_line (ps : List Platform) :
    platformsLine (.mlist ps) =
      some ("  | " ++ commaJoined (ps.map (fun p =>
        p.architecture ++ (if p.architecture = "arm" then p.variant else "")))) ∧
    platformsLine .single = none := by
  constructor
  · show some ("  | " ++ printPlatformsLoop ps) = _
    rw [printPlatformsLoop_eq]
    rfl
  · rfl

/-! ### C1: the engine-strategy pinner of publish.go -/

/-- C1: for every service of the configuration whose image parses to a tagged
reference, a successful pin run writes `domain ++ "/" ++ path ++ "@" ++ digest`
back into the service record matched by name, and the written reference parses
with no tag, the new digest, and the domain and path of the original
reference.  Service names are assumed distinct, matching the first-match
write-back contract of the source. -/
theorem C1_pin_composes_and_reparses (inspect : EngineOracle) (cfg cfg' : Config)
    (hnd : (cfg.services.map ServiceC.name).Nodup)
    (hok : PinServiceImages inspect cfg = .ok cfg')
    (s : ServiceC) (hs : s ∈ cfg.services)
    (r : Ref) (hpar : parseNormalizedNamed s.image = some r)
    (t : String) (_htag : r.tag = some t)
    (dg : String) (ps : List Platform) (hins : inspect s.image = .ok (dg, ps))
    (hdg1 : dg ≠ "") (hdg2 : '@' ∉ dg.data) (hdg3 : '/' ∉ dg.data) :
    cfg'.services.find? (fun sv => sv.name == s.name) =
      some ⟨s.name, r.domain ++ "/" ++ r.path ++ "@" ++ dg⟩ ∧
    parseNormalizedNamed (r.domain ++ "/" ++ r.path ++ "@" ++ dg) =
      some ⟨r.domain, r.path, none, some dg⟩ := by
  have hok2 : pinConfigGo inspect cfg.services cfg.services = .ok cfg'.services := by
    unfold PinServiceImages at hok
    cases hgo : pinConfigGo inspect cfg.services cfg.services with
    | error e => rw [hgo] at hok; cases hok
    | ok l =>
      rw [hgo] at hok
      simp only [Except.map] at hok
      cases hok
      rfl
  refine ⟨?_, parseNormalizedNamed_pinned hpar hdg1 hdg2 hdg3⟩
  exact pinConfigGo_spec inspect cfg.services cfg.services cfg'.services
    (fun u hu => List.mem_map_of_mem ServiceC.name hu) hnd hok2 s hs r dg ps hpar hins

/-- The concrete engine oracle of the spec scenario: tag `stable` of `nginx`
resolves to the digest `sha256:aaa` on a single platform. -/
def inspectScenario : EngineOracle := fun img =>
  if img = "nginx:stable" then .ok ("sha256:aaa", [⟨"amd64", ""⟩])
  else .error "no such image"

/-- The configuration of the spec scenario: one service `web` with image
`nginx:stable`. -/
def cfgScenario : Config := ⟨[⟨"web", "nginx:stable"⟩]⟩

/-- Witness for C1 at the spec scenario: every hypothesis holds at the
concrete input and the pinned record is
`docker.io/library/nginx@sha256:aaa`. -/
theorem C1_pin_composes_and_reparses_witness :
    ((cfgScenario.services.map ServiceC.name).Nodup ∧
     PinServiceImages inspectScenario cfgScenario =
       .ok ⟨[⟨"web", "docker.io/library/nginx@sha256:aaa"⟩]⟩ ∧
     (⟨"web", "nginx:stable"⟩ : ServiceC) ∈ cfgScenario.services ∧
     parseNormalizedNamed "nginx:stable" =
       some ⟨"docker.io", "library/nginx", some "stable", none⟩ ∧
     inspectScenario "nginx:stable" = .ok ("sha256:aaa", [⟨"amd64", ""⟩])) ∧
    ((⟨[⟨"web", "docker.io/library/nginx@sha256:aaa"⟩]⟩ : Config).services.find?
        (fun sv => sv.name == "web") =
      some ⟨"web", "docker.io" ++ "/" ++ "library/nginx" ++ "@" ++ "sha256:aaa"⟩ ∧
     parseNormalizedNamed ("docker.io" ++ "/" ++ "library/nginx" ++ "@" ++ "sha256:aaa") =
      some ⟨"docker.io", "library/nginx", none, some "sha256:aaa"⟩) := by
  refine ⟨⟨by decide, by rfl, by decide, by decide, by rfl⟩, ?_⟩
  exact C1_pin_composes_and_reparses inspectScenario cfgScenario
    ⟨[⟨"web", "docker.io/library/nginx@sha256:aaa"⟩]⟩ (by decide) (by rfl)
    ⟨"web", "nginx:stable"⟩ (by decide)
    ⟨"docker.io", "library/nginx", some "stable", none⟩ (by decide)
    "stable" rfl "sha256:aaa" [⟨"amd64", ""⟩] (by rfl)
    (by decide) (by decide) (by decide)

/-! ### C3: the registry-strategy pinner silently drops resolution failures -/

/-- A registry oracle whose tag lookup fails with a transport error while the
manifest fetch still answers. -/
def badTagsOracle : RegistryOracle :=
  { getRepository := fun _ => .ok "docker.io/library/nginx",
    tagsGet := fun _ _ => .error "tag lookup failed",
    manifestsGet := fun _ _ => .ok (.mlist [⟨"amd64", ""⟩]) }

/-- C3, registry strategy at a failing tag lookup: part_001 discards the
error of `repo.Tags(ctx).Get` (and of the manifest fetches), returns a nil
error, and writes back a digestless pinned image built from the zero
descriptor — the resolution failure is silently dropped instead of being
returned as a ResolutionError. -/
theorem C3_resolution_error_dropped :
    pinServiceImagesP1 badTagsOracle
      [("web", Val.vmap [("image", Val.vstr "nginx:stable")])] =
    ([("web", Val.vmap [("image", Val.vstr "docker.io/library/nginx@")])],
     .ret none) := rfl

/-! ### C6: part_002 crashes on an untagged reference -/

/-- A registry oracle that answers every request. -/
def okRegistryOracle : RegistryOracle :=
  { getRepository := fun _ => .ok "repo",
    tagsGet := fun _ _ => .ok ⟨"sha256:d"⟩,
    manifestsGet := fun _ _ => .ok .single }

/-- C6, at the untagged image `nginx` under part_002: the unchecked type
assertion `named.(reference.Tagged)` panics instead of returning a
ReferenceError; the service record is left unmodified only because the whole
process crashes. -/
theorem C6_untagged_panics_in_part002 :
    pinServiceImagesP2 okRegistryOracle
      [("web", Val.vmap [("image", Val.vstr "nginx")])] =
    ([("web", Val.vmap [("image", Val.vstr "nginx")])],
     .panicked "interface conversion: reference.Named is not reference.Tagged") := rfl

/-! ### C7: the map-based pinner is non-atomic and best-effort -/

/-- C7: when the services before `nv` all pin successfully and `nv` itself
fails, the run returns that error, the earlier services keep their new pinned
values, and `nv` and every later service are left untouched. -/
theorem C7_non_atomic_best_effort (inspect : EngineOracle)
    (pre : List (String × Val)) (nv : String × Val)
    (rest : List (String × Val)) (msg : String)
    (hpre : ∀ p ∈ pre, ∃ v2, pinOneP3 inspect p.1 p.2 = .ok v2)
    (hfail : pinOneP3 inspect nv.1 nv.2 = .error msg) :
    pinServiceImagesP3 inspect (pre ++ nv :: rest) =
      (pre.map (fun p => (p.1, pinnedValP3 inspect p.1 p.2)) ++ nv :: rest,
       some msg) := by
  induction pre with
  | nil =>
    obtain ⟨n, v⟩ := nv
    simp only [List.nil_append, pinServiceImagesP3, hfail, List.map_nil]
  | cons hd tl ih =>
    obtain ⟨n, v⟩ := hd
    obtain ⟨v2, hv2⟩ := hpre (n, v) (by simp)
    simp only [List.cons_append, pinServiceImagesP3, hv2, List.append_eq]
    rw [ih (fun p hp => hpre p (by simp [hp]))]
    simp [pinnedValP3, hv2]

/-- A concrete engine oracle for the C7 witness. -/
def inspectC7 : EngineOracle := fun img =>
  if img = "nginx:stable" then .ok ("sha256:bbb", []) else .error "no such image"

/-- Witness for C7: three services, the middle one lacking an image
attribute; the first keeps its pinned value, the failing and the last stay
untouched, and the InputError names the failing service. -/
theorem C7_non_atomic_best_effort_witness :
    ((∀ p ∈ [("s1", Val.vmap [("image", Val.vstr "nginx:stable")])],
        ∃ v2, pinOneP3 inspectC7 p.1 p.2 = .ok v2) ∧
     pinOneP3 inspectC7 "s2" (Val.vmap []) =
       .error "Service(s2) missing image attribute") ∧
    pinServiceImagesP3 inspectC7
      ([("s1", Val.vmap [("image", Val.vstr "nginx:stable")])] ++
        ("s2", Val.vmap []) :: [("s3", Val.vmap [("image", Val.vstr "nginx:stable")])]) =
    ([("s1", Val.vmap [("image", Val.vstr "docker.io/library/nginx@sha256:bbb")])] ++
      ("s2", Val.vmap []) :: [("s3", Val.vmap [("image", Val.vstr "nginx:stable")])],
     some "Service(s2) missing image attribute") := by
  refine ⟨⟨?_, rfl⟩, ?_⟩
  · intro p hp
    rw [List.mem_singleton] at hp
    subst hp
    exact ⟨_, rfl⟩
  · exact C7_non_atomic_best_effort inspectC7
      [("s1", Val.vmap [("image", Val.vstr "nginx:stable")])]
      ("s2", Val.vmap [])
      [("s3", Val.vmap [("image", Val.vstr "nginx:stable")])]
      "Service(s2) missing image attribute"
      (by
        intro p hp
        rw [List.mem_singleton] at hp
        subst hp
        exact ⟨_, rfl⟩)
      rfl

/-! ### Model of the path/filepath glob matcher (collaborator)

Translated from Go's `filepath.Match`.  The loop-shaped routines are written
structurally over an explicit iteration budget so that the kernel can
evaluate them; each budget is an upper bound on the loop trip count that the
corresponding Go loop can never exceed, so the budget never runs out. -/

/-- `getEsc`: read one (possibly escaped) character-class character; errors
on an empty, `-`/`]`-leading, dangling-escape or unterminated class. -/
def getEsc : List Char → Except Unit (Char × List Char)
  | [] => .error ()
  | c :: rest =>
    if c = '-' ∨ c = ']' then .error ()
    else if c = '\\' then
      match rest with
      | [] => .error ()
      | d :: rest2 => if rest2 = [] then .error () else .ok (d, rest2)
    else if rest = [] then .error () else .ok (c, rest)

/-- The range-parsing loop of a character class: stop at `]` once at least
one range was read, otherwise read a lower (and after `-` an upper) bound and
accumulate whether the rune falls in some range.  Every iteration consumes at
least one chunk character, so a budget of `chunk.length + 1` never runs
out. -/
def classLoopF (r : Char) : Nat → List Char → Nat → Bool → Option (Bool × List Char)
  | 0, _, _, _ => none
  | fuel + 1, chunk, nrange, acc =>
    if chunk.head? = some ']' ∧ 0 < nrange then some (acc, chunk.tail)
    else
      match getEsc chunk with
      | .error _ => none
      | .ok (lo, ch1) =>
        match ch1 with
        | '-' :: ch2 =>
          match getEsc ch2 with
          | .error _ => none
          | .ok (hi, ch3) =>
            classLoopF r fuel ch3 (nrange + 1)
              (acc || (decide (lo ≤ r) && decide (r ≤ hi)))
        | _ =>
          classLoopF r fuel ch1 (nrange + 1)
            (acc || (decide (lo ≤ r) && decide (r ≤ lo)))

def classLoop (r : Char) (chunk : List Char) (nrange : Nat) (acc : Bool) :
    Option (Bool × List Char) :=
  classLoopF r (chunk.length + 1) chunk nrange acc

/-- Result of matching one chunk against the head of the name: the remaining
name on success, a mismatch, or a malformed pattern. -/
inductive ChunkRes where
  | ok (t : List Char)
  | nomatch
  | bad
  deriving DecidableEq, Repr

/-- `matchChunk`: match the fixed chunk (classes, `?`, escapes, literals)
against the name head by head.  Each recursive step consumes at least one
chunk character, so a budget of `chunk.length + 1` never runs out. -/
def matchChunkF : Nat → List Char → List Char → ChunkRes
  | 0, _, _ => .bad
  | fuel + 1, chunk, s =>
    match chunk with
    | [] => .ok s
    | c :: crest =>
      match s with
      | [] => .nomatch
      | sc :: srest =>
        if c = '[' then
          let negated : Bool := decide (crest.head? = some '^')
          let crest2 := if crest.head? = some '^' then crest.tail else crest
          match classLoop sc crest2 0 false with
          | none => .bad
          | some (matched, chrest) =>
            if matched = negated then .nomatch else matchChunkF fuel chrest srest
        else if c = '?' then
          if sc = '/' then .nomatch else matchChunkF fuel crest srest
        else if c = '\\' then
          match crest with
          | [] => .bad
          | d :: crest2 => if d = sc then matchChunkF fuel crest2 srest else .nomatch
        else if c = sc then matchChunkF fuel crest srest
        else .nomatch

def matchChunk (chunk s : List Char) : ChunkRes :=
  matchChunkF (chunk.length + 1) chunk s

/-- `scanChunk`, star-stripping part: consume the leading `*`s. -/
def scanChunkStars : List Char → Bool × List Char
  | [] => (false, [])
  | c :: rest =>
    if c = '*' then (true, (scanChunkStars rest).2) else (false, c :: rest)

/-- `scanChunk`, body part: collect up to the next top-level `*`, keeping
escaped characters and whole `[...]` ranges inside the chunk. -/
def scanChunkBody : List Char → Bool → List Char × List Char
  | [], _ => ([], [])
  | c :: rest, inr =>
    if c = '\\' then
      match rest with
      | [] => (['\\'], [])
      | d :: rest2 =>
        match scanChunkBody rest2 inr with
        | (ch, rs) => (c :: d :: ch, rs)
    else if c = '[' then
      match scanChunkBody rest true with
      | (ch, rs) => (c :: ch, rs)
    else if c = ']' then
      match scanChunkBody rest false with
      | (ch, rs) => (c :: ch, rs)
    else if c = '*' then
      if inr then
        match scanChunkBody rest inr with
        | (ch, rs) => (c :: ch, rs)
      else ([], c :: rest)
    else
      match scanChunkBody rest inr with
      | (ch, rs) => (c :: ch, rs)

def scanChunk (p : List Char) : Bool × List Char × List Char :=
  match scanChunkStars p with
  | (star, p2) =>
    match scanChunkBody p2 false with
    | (chunk, rest) => (star, chunk, rest)

mutual
/-- The main loop of `filepath.Match`: `some b` is the verdict, `none` is
`ErrBadPattern`.  Every call strictly decreases the pair
(pattern length, name length) lexicographically and both components stay
bounded by their initial values, so a budget of
`(pattern.length + 1) * (name.length + 2)` calls never runs out. -/
def goMatchF : Nat → List Char → List Char → Option Bool
  | 0, _, _ => none
  | fuel + 1, pattern, name =>
    match pattern with
    | [] => some (decide (name = []))
    | _ =>
      match scanChunk pattern with
      | (star, chunk, rest) =>
        if star ∧ chunk = [] then some (!(name.contains '/'))
        else
          match matchChunk chunk name with
          | .ok t =>
            if t = [] ∨ rest ≠ [] then goMatchF fuel rest t
            else if star then starLoopF fuel chunk rest name else some false
          | .bad => none
          | .nomatch => if star then starLoopF fuel chunk rest name else some false

/-- The star backtracking loop: retry the chunk at every later position of
the name, stopping at a separator. -/
def starLoopF : Nat → List Char → List Char → List Char → Option Bool
  | 0, _, _, _ => none
  | fuel + 1, chunk, rest, name =>
    match name with
    | [] => some false
    | c :: nrest =>
      if c = '/' then some false
      else
        match matchChunk chunk nrest with
        | .ok t =>
          if rest = [] ∧ t ≠ [] then starLoopF fuel chunk rest nrest
          else goMatchF fuel rest t
        | .bad => none
        | .nomatch => starLoopF fuel chunk rest nrest
end

/-- Model of `path/filepath.Match`. -/
def filepathMatch (pattern name : String) : Option Bool :=
  goMatchF ((pattern.data.length + 1) * (name.data.length + 2))
    pattern.data name.data

/-! ### Model of the dockerignore reader (collaborator) -/

def newline : Char := Char.ofNat 10

/-- Scanner lines: split the content at newline characters. -/
def splitLines : List Char → List (List Char)
  | [] => [[]]
  | c :: rest =>
    if c = newline then [] :: splitLines rest
    else
      match splitLines rest with
      | [] => [[c]]
      | line :: lines => (c :: line) :: lines

/-- The whitespace characters `strings.TrimSpace` removes (ASCII part). -/
def isSpaceGo (c : Char) : Bool :=
  c = ' ' ∨ c = Char.ofNat 9 ∨ c = Char.ofNat 11 ∨ c = Char.ofNat 12 ∨ c = Char.ofNat 13

def trimSpacesGo (l : List Char) : List Char :=
  ((l.dropWhile (fun c => isSpaceGo c)).reverse.dropWhile (fun c => isSpaceGo c)).reverse

/-- `dockerignore.ReadAll` (collaborator): drop comment lines (leading `#`,
tested before trimming), trim whitespace, drop blank lines.  BOM stripping,
negation normalization and path cleaning of the collaborator are not
modelled; no claim depends on them. -/
def readIgnoreLines (content : String) : List String :=
  (((splitLines content.data).filter
      (fun l => ¬ l.head? = some '#')).map trimSpacesGo).filterMap
    (fun l => if l = [] then none else some (String.mk l))

/-! ### The archive builder -/

/-- Filesystem entry kind as seen by the walk (a symlink carries the target
that `os.Readlink` would report). -/
inductive FKind where
  | dir
  | regular
  | symlink (target : String)
  | irregular
  deriving DecidableEq, Repr

/-- One entry of the walk sequence over the bundle root, identified by its
archive-relative separator-normalized path; `content` is the byte content of
a regular file. -/
structure WalkEntry where
  relPath : String
  kind : FKind
  content : String
  deriving DecidableEq, Repr

/-- A written tar header plus its payload. -/
structure TarEntry where
  name : String
  size : Nat
  content : String
  linkname : String
  deriving DecidableEq, Repr

/-- `fi.Name()`: the base name — what follows the last separator. -/
def baseName (s : String) : String :=
  String.mk ((s.data.reverse.takeWhile (fun c => ¬ c = '/')).reverse)

def composeFile : String := "docker-compose.yml"

def ignoresFile : String := ".composeappignores"

/-- `getIgnores` of part_001: read the well-known ignore file at the bundle
root; when the reader yields a nil pattern list (missing file, or a file with
no effective pattern lines) the ignore-file name is not appended and no
exclusions apply; otherwise the ignore-file name itself is appended as a
pattern. -/
def getIgnores (d : List WalkEntry) : List String :=
  match d.find? (fun e => e.relPath == ignoresFile) with
  | none => []
  | some e =>
    match readIgnoreLines e.content with
    | [] => []
    | igs => igs ++ [ignoresFile]

/-- The per-entry exclusion test of part_001's createTgz: any pattern that
matches the archive-relative name without a pattern error causes a skip. -/
def shouldIgnore (igs : List String) (name : String) : Bool :=
  igs.any (fun p => filepathMatch p name == some true)

/-- The walk closure body of part_001's createTgz for one entry: directories
produce nothing; excluded names are skipped; the entry whose base name equals
the canonical descriptor filename carries the in-memory descriptor bytes and
length instead of its on-disk content; symlinks store their target and no
payload; any other irregular entry aborts the build. -/
def tarOne (cc : String) (igs : List String) (e : WalkEntry) :
    Except String (Option TarEntry) :=
  if e.kind = .dir then .ok none
  else if shouldIgnore igs e.relPath then .ok none
  else
    match e.kind with
    | .irregular => .error ("Tar: Cant tar non regular types yet: " ++ e.relPath)
    | .symlink tg =>
      .ok (some ⟨e.relPath,
        (if baseName e.relPath = composeFile then cc.length else 0),
        (if baseName e.relPath = composeFile then cc else ""),
        tg⟩)
    | _ =>
      .ok (some ⟨e.relPath,
        (if baseName e.relPath = composeFile then cc.length else e.content.length),
        (if baseName e.relPath = composeFile then cc else e.content),
        ""⟩)

/-- The walk of part_001's createTgz: entries in walk order, aborting the
whole build on the first error. -/
def tarWalk (cc : String) (igs : List String) :
    List WalkEntry → Except String (List TarEntry)
  | [] => .ok []
  | e :: rest =>
    match tarOne cc igs e with
    | .error m => .error m
    | .ok none => tarWalk cc igs rest
    | .ok (some t) =>
      match tarWalk cc igs rest with
      | .error m => .error m
      | .ok ts => .ok (t :: ts)

/-- part_001's createTgz: the logical content of the produced archive (gzip
framing and filesystem-derived header metadata are outside the claims). -/
def createTgz (cc : String) (d : List WalkEntry) : Except String (List TarEntry) :=
  tarWalk cc (getIgnores d) d

/-- The walk body of the createTgz variants without ignore support
(publish.go, part_002, part_003): directories are skipped and any non-regular
entry aborts; descriptor-named entries carry the in-memory descriptor. -/
def tarOneSimple (cc : String) (e : WalkEntry) : Except String (Option TarEntry) :=
  if e.kind = .dir then .ok none
  else if ¬ e.kind = .regular then
    .error ("Tar: Cant tar non regular types yet: " ++ baseName e.relPath)
  else
    .ok (some ⟨e.relPath,
      (if baseName e.relPath = composeFile then cc.length else e.content.length),
      (if baseName e.relPath = composeFile then cc else e.content),
      ""⟩)

def tarWalkSimple (cc : String) : List WalkEntry → Except String (List TarEntry)
  | [] => .ok []
  | e :: rest =>
    match tarOneSimple cc e with
    | .error m => .error m
    | .ok none => tarWalkSimple cc rest
    | .ok (some t) =>
      match tarWalkSimple cc rest with
      | .error m => .error m
      | .ok ts => .ok (t :: ts)

/-- publish.go's createTgz (no ignore handling). -/
def createTgzSimple (cc : String) (d : List WalkEntry) :
    Except String (List TarEntry) :=
  tarWalkSimple cc d

/-! ### The bundle publisher -/

/-- The registry surface CreateBundle consumes: repository resolution, blob
upload, manifest construction, manifest-service acquisition, manifest push. -/
structure PublishOracle where
  getRepository : String → Except String String
  blobPut : String → String → List TarEntry → Except String Descriptor
  manifestBuild : String → Except String String
  manifestsSvc : String → Except String String
  manifestPut : String → String → String → Except String String

/-- publish.go's CreateBundle: build the archive over the bundle root (the
serialized descriptor bytes are an input; the yaml collaborator is not
modelled), parse the target with the tag defaulting to `latest`, resolve the
repository, upload the blob, then build and push the manifest.
`.ok (some (blobDigest, manifestDigest))` is a completed publish;
`.ok none` models the source's `return nil` on a failed blob upload — the
error value of `blobStore.Put` is dropped and the function reports success
without pushing a manifest. -/
def CreateBundle (o : PublishOracle) (pinnedYaml : String)
    (dirstate : List WalkEntry) (target : String) :
    Except String (Option (String × String)) :=
  match createTgzSimple pinnedYaml dirstate with
  | .error e => .error e
  | .ok buff =>
    match parseNormalizedNamed target with
    | none => .error "invalid reference format"
    | some r =>
      match o.getRepository (r.domain ++ "/" ++ r.path) with
      | .error e => .error e
      | .ok repo =>
        match o.blobPut repo "application/tar+gzip" buff with
        | .error _ => .ok none
        | .ok desc =>
          match o.manifestBuild desc.digest with
          | .error e => .error e
          | .ok manifest =>
            match o.manifestsSvc repo with
            | .error e => .error e
            | .ok msvc =>
              match o.manifestPut msvc manifest (r.tag.getD "latest") with
              | .error e => .error e
              | .ok mdigest => .ok (some (desc.digest, mdigest))

/-! ### C9: the placeholder shim indexes without a length guard -/

/-- C9: the placeholder check of part_001 reads `image[0]` with no emptiness
guard, so a service whose image attribute is the empty string makes
`PinServiceImages` panic with an index-out-of-range error (the run is total
only when every image string is non-empty); the state is left unchanged. -/
theorem C9_empty_image_panics (o : RegistryOracle) (name : String)
    (rest : List (String × Val)) :
    pinServiceImagesP1 o ((name, Val.vmap [("image", Val.vstr "")]) :: rest) =
      ((name, Val.vmap [("image", Val.vstr "")]) :: rest,
       .panicked "index out of range") := rfl

/-! ### Properties of the walk -/

theorem tarWalk_mem (cc : String) (igs : List String) :
    ∀ (d : List WalkEntry) (es : List TarEntry) (e : WalkEntry) (t : TarEntry),
    tarWalk cc igs d = .ok es → e ∈ d → tarOne cc igs e = .ok (some t) →
    t ∈ es := by
  intro d
  induction d with
  | nil =>
    intro es e t _ he _
    cases he
  | cons e0 rest ih =>
    intro es e t hok he ht
    rcases List.mem_cons.mp he with rfl | he2
    · simp only [tarWalk, ht] at hok
      cases hw : tarWalk cc igs rest with
      | error m => rw [hw] at hok; cases hok
      | ok ts =>
        rw [hw] at hok
        cases hok
        exact List.mem_cons_self _ _
    · simp only [tarWalk] at hok
      cases h1 : tarOne cc igs e0 with
      | error m => rw [h1] at hok; cases hok
      | ok o =>
        rw [h1] at hok
        cases o with
        | none => exact ih es e t hok he2 ht
        | some t0 =>
          cases hw : tarWalk cc igs rest with
          | error m => rw [hw] at hok; cases hok
          | ok ts =>
            rw [hw] at hok
            cases hok
            exact List.mem_cons_of_mem _ (ih ts e t hw he2 ht)

theorem tarOne_descriptor (cc : String) (igs : List String) (e : WalkEntry)
    (hreg : e.kind = .regular) (hbase : baseName e.relPath = composeFile)
    (hig : shouldIgnore igs e.relPath = false) :
    tarOne cc igs e = .ok (some ⟨e.relPath, cc.length, cc, ""⟩) := by
  unfold tarOne
  rw [if_neg (by rw [hreg]; intro h; cases h)]
  rw [if_neg (by rw [hig]; intro h; cases h)]
  rw [hreg]
  simp [hbase]

theorem tarOne_not_ignored (cc : String) (igs : List String) (e : WalkEntry)
    (t : TarEntry) (h : tarOne cc igs e = .ok (some t)) :
    t.name = e.relPath ∧ shouldIgnore igs e.relPath = false := by
  unfold tarOne at h
  by_cases h1 : e.kind = FKind.dir
  · rw [if_pos h1] at h; cases h
  · rw [if_neg h1] at h
    cases hb : shouldIgnore igs e.relPath with
    | true =>
      rw [if_pos (by rw [hb])] at h
      cases h
    | false =>
      rw [if_neg (by rw [hb]; intro hc; cases hc)] at h
      refine ⟨?_, rfl⟩
      cases hk : e.kind with
      | dir => exact absurd hk h1
      | irregular => rw [hk] at h; cases h
      | regular => rw [hk] at h; cases h; rfl
      | symlink tg => rw [hk] at h; cases h; rfl

theorem tarWalk_all_not_ignored (cc : String) (igs : List String) :
    ∀ (d : List WalkEntry) (es : List TarEntry),
    tarWalk cc igs d = .ok es → ∀ t ∈ es, shouldIgnore igs t.name = false := by
  intro d
  induction d with
  | nil =>
    intro es hok t ht
    cases hok
    cases ht
  | cons e0 rest ih =>
    intro es hok t ht
    simp only [tarWalk] at hok
    cases h1 : tarOne cc igs e0 with
    | error m => rw [h1] at hok; cases hok
    | ok o =>
      rw [h1] at hok
      cases o with
      | none => exact ih es hok t ht
      | some t0 =>
        cases hw : tarWalk cc igs rest with
        | error m => rw [hw] at hok; cases hok
        | ok ts =>
          rw [hw] at hok
          cases hok
          rcases List.mem_cons.mp ht with rfl | ht2
          · obtain ⟨hn, hni⟩ := tarOne_not_ignored cc igs e0 t h1
            rw [hn]
            exact hni
          · exact ih ts hw t ht2

/-! ### C2: a failed blob upload is reported as success -/

/-- A publish oracle whose blob upload fails while everything else
succeeds. -/
def failingBlobOracle : PublishOracle :=
  { getRepository := fun _ => .ok "repo",
    blobPut := fun _ _ _ => .error "blob upload failed",
    manifestBuild := fun d => .ok ("manifest-of-" ++ d),
    manifestsSvc := fun _ => .ok "msvc",
    manifestPut := fun _ _ _ => .ok "sha256:man" }

/-- C2, at a failing blob upload: CreateBundle returns a nil error and never
reaches the manifest push — the `return nil` in the blob-put error check
swallows the failure instead of aborting with a PublishError. -/
theorem C2_blob_failure_swallowed :
    CreateBundle failingBlobOracle "yaml"
      [⟨"docker-compose.yml", .regular, "old"⟩] "example.com/app:v1" =
    .ok none := rfl

/-! ### C4: the descriptor entry of the archive -/

/-- C4 counterexample: with no descriptor-named file on disk, the archive of
createTgz contains no descriptor entry — here the whole archive is the single
entry `a.txt` with its on-disk bytes. -/
theorem C4_no_descriptor_entry_counterexample :
    createTgz "x" [⟨"a.txt", .regular, "hello"⟩] =
      .ok [⟨"a.txt", 5, "hello", ""⟩] ∧
    ([(⟨"a.txt", 5, "hello", ""⟩ : TarEntry)].all
      (fun t => decide (¬ t.name = composeFile))) = true := by
  exact ⟨rfl, by decide⟩

/-- C4 (amended): whenever the walk yields a regular, non-excluded file at
the canonical descriptor path and the build succeeds, the archive contains a
descriptor entry whose payload is the in-memory serialized descriptor and
whose header size is the serialized length, regardless of the file's on-disk
content; when no such file exists, no descriptor entry is produced. -/
theorem C4_descriptor_entry (cc : String) (d : List WalkEntry)
    (es : List TarEntry) (hok : createTgz cc d = .ok es)
    (x : String) (hmem : (⟨composeFile, .regular, x⟩ : WalkEntry) ∈ d)
    (hig : shouldIgnore (getIgnores d) composeFile = false) :
    (⟨composeFile, cc.length, cc, ""⟩ : TarEntry) ∈ es := by
  refine tarWalk_mem cc (getIgnores d) d es ⟨composeFile, .regular, x⟩ _ hok hmem ?_
  exact tarOne_descriptor cc _ ⟨composeFile, .regular, x⟩ rfl
    (show baseName composeFile = composeFile by decide) hig

/-- Witness for C4: a descriptor file whose on-disk content `old` differs
from the serialized descriptor `new`; the archive entry carries `new` with
size 3. -/
theorem C4_descriptor_entry_witness :
    (createTgz "new" [⟨"a.txt", .regular, "A"⟩, ⟨"docker-compose.yml", .regular, "old"⟩] =
       .ok [⟨"a.txt", 1, "A", ""⟩, ⟨"docker-compose.yml", 3, "new", ""⟩] ∧
     (⟨composeFile, FKind.regular, "old"⟩ : WalkEntry) ∈
       [(⟨"a.txt", FKind.regular, "A"⟩ : WalkEntry),
        ⟨"docker-compose.yml", FKind.regular, "old"⟩] ∧
     shouldIgnore (getIgnores [(⟨"a.txt", FKind.regular, "A"⟩ : WalkEntry),
        ⟨"docker-compose.yml", FKind.regular, "old"⟩]) composeFile = false) ∧
    (⟨composeFile, ("new" : String).length, "new", ""⟩ : TarEntry) ∈
      [(⟨"a.txt", 1, "A", ""⟩ : TarEntry), ⟨"docker-compose.yml", 3, "new", ""⟩] := by
  refine ⟨⟨rfl, by decide, by decide⟩, ?_⟩
  exact C4_descriptor_entry "new"
    [⟨"a.txt", .regular, "A"⟩, ⟨"docker-compose.yml", .regular, "old"⟩]
    [⟨"a.txt", 1, "A", ""⟩, ⟨"docker-compose.yml", 3, "new", ""⟩] rfl
    "old" (by decide) (by decide)

/-! ### C10: substitution is keyed on the base name alone -/

/-- C10: for every non-excluded regular file anywhere under the root whose
base name equals the canonical descriptor filename — subdirectories included —
the archive entry at its relative path carries the in-memory descriptor bytes
with the serialized length as its size, never the on-disk content. -/
theorem C10_basename_substitution (cc : String) (d : List WalkEntry)
    (es : List TarEntry) (hok : createTgz cc d = .ok es)
    (e : WalkEntry) (hmem : e ∈ d) (hreg : e.kind = .regular)
    (hbase : baseName e.relPath = composeFile)
    (hig : shouldIgnore (getIgnores d) e.relPath = false) :
    (⟨e.relPath, cc.length, cc, ""⟩ : TarEntry) ∈ es :=
  tarWalk_mem cc (getIgnores d) d es e _ hok hmem
    (tarOne_descriptor cc _ e hreg hbase hig)

/-- Witness for C10: a file `sub/docker-compose.yml` with on-disk content
`diskdata`; its archive entry carries the serialized descriptor `CC` with
size 2. -/
theorem C10_basename_substitution_witness :
    (createTgz "CC" [⟨"sub/docker-compose.yml", .regular, "diskdata"⟩] =
       .ok [⟨"sub/docker-compose.yml", 2, "CC", ""⟩] ∧
     (⟨"sub/docker-compose.yml", FKind.regular, "diskdata"⟩ : WalkEntry) ∈
       [(⟨"sub/docker-compose.yml", FKind.regular, "diskdata"⟩ : WalkEntry)] ∧
     baseName "sub/docker-compose.yml" = composeFile ∧
     shouldIgnore (getIgnores [(⟨"sub/docker-compose.yml", FKind.regular,
       "diskdata"⟩ : WalkEntry)]) "sub/docker-compose.yml" = false) ∧
    (⟨"sub/docker-compose.yml", ("CC" : String).length, "CC", ""⟩ : TarEntry) ∈
      [(⟨"sub/docker-compose.yml", 2, "CC", ""⟩ : TarEntry)] := by
  refine ⟨⟨rfl, by decide, by decide, by decide⟩, ?_⟩
  exact C10_basename_substitution "CC"
    [⟨"sub/docker-compose.yml", .regular, "diskdata"⟩]
    [⟨"sub/docker-compose.yml", 2, "CC", ""⟩] rfl
    ⟨"sub/docker-compose.yml", .regular, "diskdata"⟩ (by decide) (by decide)
    (by decide) (by decide)

/-! ### C5: exclusion patterns and the ignore file -/

/-- C5 counterexample: an ignore file with no effective pattern lines (empty
content) yields a nil pattern list, the implicit self-exclusion is skipped,
and the ignore file itself is an entry of the archive. -/
theorem C5_empty_ignore_file_counterexample :
    createTgz "x" [⟨ignoresFile, .regular, ""⟩] =
      .ok [⟨ignoresFile, 0, "", ""⟩] ∧
    (⟨ignoresFile, 0, "", ""⟩ : TarEntry).name = ignoresFile :=
  ⟨rfl, rfl⟩

/-- C5 (amended): every entry of a successfully produced archive has a name
matched by no effective pattern — an entry whose relative path matches an
ignore pattern is absent — and whenever the ignore file yields at least one
pattern, the ignore file itself is excluded from the archive. -/
theorem C5_ignore_exclusions (cc : String) (d : List WalkEntry)
    (es : List TarEntry) (hok : createTgz cc d = .ok es) :
    (∀ t ∈ es, shouldIgnore (getIgnores d) t.name = false) ∧
    (getIgnores d ≠ [] → ∀ t ∈ es, t.name ≠ ignoresFile) := by
  have hall := tarWalk_all_not_ignored cc (getIgnores d) d es hok
  refine ⟨hall, ?_⟩
  intro hne t ht heq
  have hmem : ignoresFile ∈ getIgnores d := by
    unfold getIgnores at hne ⊢
    cases hf : d.find? (fun e => e.relPath == ignoresFile) with
    | none =>
      rw [hf] at hne
      exact absurd rfl hne
    | some e0 =>
      rw [hf] at hne
      have hne2 : (match readIgnoreLines e0.content with
          | [] => ([] : List String)
          | igs => igs ++ [ignoresFile]) ≠ [] := hne
      show ignoresFile ∈ (match readIgnoreLines e0.content with
        | [] => ([] : List String)
        | igs => igs ++ [ignoresFile])
      cases hr : readIgnoreLines e0.content with
      | nil =>
        rw [hr] at hne2
        exact absurd rfl hne2
      | cons a as =>
        show ignoresFile ∈ (a :: as) ++ [ignoresFile]
        exact List.mem_append_right _ (by simp)
  have hmatch : (filepathMatch ignoresFile ignoresFile == some true) = true := by decide
  have hfalse := hall t ht
  rw [heq] at hfalse
  unfold shouldIgnore at hfalse
  have hany : (getIgnores d).any
      (fun p => filepathMatch p ignoresFile == some true) = true :=
    List.any_eq_true.mpr ⟨ignoresFile, hmem, hmatch⟩
  rw [hfalse] at hany
  cases hany

/-- The directory state of the C5 witness: an ignore file excluding `sub/*`,
a kept file, an excluded file in `sub`, and the descriptor. -/
def dScenarioC5 : List WalkEntry :=
  [⟨".composeappignores", .regular, "sub/*"⟩, ⟨"a.txt", .regular, "A"⟩,
   ⟨"sub", .dir, ""⟩, ⟨"sub/b.txt", .regular, "B"⟩,
   ⟨"docker-compose.yml", .regular, "old"⟩]

/-- The archive the C5 witness produces: `a.txt` and the descriptor entry;
`sub/b.txt` and the ignore file are absent. -/
def esScenarioC5 : List TarEntry :=
  [⟨"a.txt", 1, "A", ""⟩, ⟨"docker-compose.yml", 4, "new!", ""⟩]

/-- Witness for C5 at the spec scenario (`a.txt`, `sub/b.txt`, ignore file
`sub/*`). -/
theorem C5_ignore_exclusions_witness :
    createTgz "new!" dScenarioC5 = .ok esScenarioC5 ∧
    ((∀ t ∈ esScenarioC5, shouldIgnore (getIgnores dScenarioC5) t.name = false) ∧
     (getIgnores dScenarioC5 ≠ [] → ∀ t ∈ esScenarioC5, t.name ≠ ignoresFile)) := by
  refine ⟨rfl, ?_⟩
  exact C5_ignore_exclusions "new!" dScenarioC5 esScenarioC5 rfl

end ComposeRef
